import Mathlib

/-!
Verification of the supernote-to-pdf converter (src/main.rs) against its
specification.  The Rust code is shallowly embedded: byte buffers become
`List Nat` (each entry a byte value), the RATTA_RLE decoder's while loop
becomes a structurally recursive function threading its `holder` state and
output accumulator, and fallible functions return `Except`.
-/

namespace Supernote

/-- One pass of the while loop of decode_rle (src/main.rs lines 215-253).
The loop walks the compressed data two bytes at a time (`color_code`,
`length_code`); a lone trailing byte is not consumed (`i + 1 >= len` breaks).
`holder` is the optional deferred pair; `acc` is the decompressed output so
far.  Returns the output together with the holder state left at loop exit.
Byte values are `Nat`s; `0x7f`/`0x80`/`0xff` masks and comparisons are as in
the source. -/
def decodeRleLoop : List Nat → Option (Nat × Nat) → List Nat → List Nat × Option (Nat × Nat)
  | [], holder, acc => (acc, holder)
  | [_], holder, acc => (acc, holder)
  | c :: l :: rest, holder, acc =>
    match holder with
    | some (pc, pl) =>
      if c = pc then
        decodeRleLoop rest none (acc ++ List.replicate (1 + l + (((pl &&& 0x7f) + 1) <<< 7)) c)
      else
        decodeRleLoop rest none
          ((acc ++ List.replicate (((pl &&& 0x7f) + 1) <<< 7) pc) ++ List.replicate (l + 1) c)
    | none =>
      if l = 0xff then
        decodeRleLoop rest none (acc ++ List.replicate 0x4000 c)
      else if l &&& 0x80 ≠ 0 then
        decodeRleLoop rest (some (c, l)) acc
      else
        decodeRleLoop rest none (acc ++ List.replicate (l + 1) c)

/-- decode_rle before its final sanity resize (src/main.rs lines 207-264):
the while loop followed by the end-of-stream flush of a still-occupied
holder, whose emitted length is the lesser of `((length_code & 0x7f)+1) << 7`
and the pixels still needed (`saturating_sub`, hence truncated `Nat`
subtraction). -/
def decodeRleCore (data : List Nat) (width height : Nat) : List Nat :=
  let expected := width * height
  match decodeRleLoop data none [] with
  | (dec, some (c, l)) =>
    let tail := min (((l &&& 0x7f) + 1) <<< 7) (expected - dec.length)
    if tail > 0 then dec ++ List.replicate tail c else dec
  | (dec, none) => dec

/-- decode_rle (src/main.rs lines 207-274).  After the loop and holder flush,
`Vec::resize(expected_len, 0x62)` truncates an over-long result or pads a
short one with the transparency code 0x62; the function then returns `Ok`.
`resize` is modelled by `take` plus `replicate` padding. -/
def decode_rle (data : List Nat) (width height : Nat) : Except String (List Nat) :=
  let expected := width * height
  let dec := decodeRleCore data width height
  Except.ok
    (if dec.length ≠ expected then dec.take expected ++ List.replicate (expected - dec.length) 0x62
     else dec)

instance {ε α : Type} [DecidableEq ε] [DecidableEq α] : DecidableEq (Except ε α) := fun x y =>
  match x, y with
  | .error a, .error b =>
    if h : a = b then isTrue (by rw [h]) else isFalse (fun hc => h (Except.error.inj hc))
  | .ok a, .ok b =>
    if h : a = b then isTrue (by rw [h]) else isFalse (fun hc => h (Except.ok.inj hc))
  | .error _, .ok _ => isFalse (fun hc => Except.noConfusion hc)
  | .ok _, .error _ => isFalse (fun hc => Except.noConfusion hc)

/-- A run list pairs a color with a run length; flattening materialises the
raw pixel buffer the runs describe. -/
def flattenRuns : List (Nat × Nat) → List Nat
  | [] => []
  | (c, n) :: rs => List.replicate n c ++ flattenRuns rs

/-- The simple inverse of the RLE scheme used by the round-trip property:
every run `(c, n)` with `1 ≤ n ≤ 128` becomes the byte pair `(c, n - 1)`,
so every emitted length code is at most 0x7f. -/
def encodeRuns : List (Nat × Nat) → List Nat
  | [] => []
  | (c, n) :: rs => c :: (n - 1) :: encodeRuns rs

/-- u64::from_str as applied by parse_notebook to `PAGE<n>` suffixes and to
address values: an optional leading '+', then at least one ASCII digit, and
the value must fit in 64 bits.  Strings are handled through their char lists
(the Rust code works on the corresponding UTF-8 str slices). -/
def parse_u64 (cs : List Char) : Option Nat :=
  let ds := match cs with
    | '+' :: rest => rest
    | _ => cs
  if ds ≠ [] ∧ ds.all (·.isDigit) then
    let n := ds.foldl (fun n c => n * 10 + (c.toNat - '0'.toNat)) 0
    if n < 2 ^ 64 then some n else none
  else none

/-- The sort key used by sorted_by_key in parse_notebook (src/main.rs line
159): strip_prefix("PAGE") then parse::<u64>().unwrap().  The unwrap is
modelled with getD 0; page_addrs consults it only after checking that every
parse succeeds (a failing parse is the panic branch of page_addrs). -/
def pageSortKey (kv : String × String) : Nat :=
  (parse_u64 (kv.1.data.drop 4)).getD 0

/-- The footer entries parse_notebook keeps and their order (src/main.rs
lines 155-159): filter on starts_with("PAGE"), then a stable sort by the
numeric suffix.  The HashMap iteration order is abstracted as the order of
the association list. -/
def sortedPageKvs (footer : List (String × String)) : List (String × String) :=
  (footer.filter fun kv => ['P', 'A', 'G', 'E'].isPrefixOf kv.1.data).insertionSort
    fun a b => pageSortKey a ≤ pageSortKey b

/-- The page-address pipeline of parse_notebook (src/main.rs lines 154-161).
If some filtered key has a suffix that does not parse as u64 the Rust code
panics inside sorted_by_key (the unwrap on line 159); that is the error
branch here.  The values of the sorted entries are then parsed as u64 and
collected, a parse failure being propagated as an error (the `?` on line
161). -/
def page_addrs (footer : List (String × String)) : Except String (List Nat) :=
  if (footer.filter fun kv => ['P', 'A', 'G', 'E'].isPrefixOf kv.1.data).all
      (fun kv => (parse_u64 (kv.1.data.drop 4)).isSome) then
    match (sortedPageKvs footer).mapM (fun kv => parse_u64 kv.2.data) with
    | some l => Except.ok l
    | none => Except.error "InvalidAddress"
  else Except.error "called Result.unwrap on an Err value"

/-- file.read_exact of `n` bytes starting at absolute offset `pos`: fails
(UnexpectedEof) when fewer than `n` bytes remain. -/
def readExact (file : List Nat) (pos n : Nat) : Option (List Nat) :=
  if pos + n ≤ file.length then some ((file.drop pos).take n) else none

/-- u32::from_le_bytes of a 4-byte buffer, each byte reduced mod 256. -/
def u32_le : List Nat → Nat
  | [b0, b1, b2, b3] => b0 % 256 + 256 * (b1 % 256) + 65536 * (b2 % 256) + 16777216 * (b3 % 256)
  | _ => 0

/-- A UTF-8 continuation byte. -/
def isCont (b : Nat) : Bool := 0x80 ≤ b && b ≤ 0xBF

/-- Validity of the tail of a 3-byte UTF-8 sequence (rejecting overlong forms
and surrogates, as String::from_utf8 does). -/
def utf8Valid3 (b0 b1 b2 : Nat) : Bool :=
  isCont b1 && isCont b2 &&
    (if b0 = 0xE0 then 0xA0 ≤ b1 else if b0 = 0xED then b1 ≤ 0x9F else true)

/-- Validity of the tail of a 4-byte UTF-8 sequence (rejecting overlong forms
and code points beyond U+10FFFF). -/
def utf8Valid4 (b0 b1 b2 b3 : Nat) : Bool :=
  isCont b1 && isCont b2 && isCont b3 &&
    (if b0 = 0xF0 then 0x90 ≤ b1 else if b0 = 0xF4 then b1 ≤ 0x8F else true)

/-- String::from_utf8: strict UTF-8 decoding of a byte list to chars, `none`
on any malformed sequence. -/
def utf8Decode : List Nat → Option (List Char)
  | [] => some []
  | b0 :: rest =>
    if b0 ≤ 0x7F then
      (utf8Decode rest).map (fun cs => Char.ofNat b0 :: cs)
    else if 0xC2 ≤ b0 ∧ b0 ≤ 0xDF then
      match rest with
      | b1 :: r =>
        if isCont b1 then
          (utf8Decode r).map (fun cs => Char.ofNat ((b0 - 0xC0) * 64 + (b1 - 0x80)) :: cs)
        else none
      | [] => none
    else if 0xE0 ≤ b0 ∧ b0 ≤ 0xEF then
      match rest with
      | b1 :: b2 :: r =>
        if utf8Valid3 b0 b1 b2 then
          (utf8Decode r).map
            (fun cs => Char.ofNat ((b0 - 0xE0) * 4096 + (b1 - 0x80) * 64 + (b2 - 0x80)) :: cs)
        else none
      | _ => none
    else if 0xF0 ≤ b0 ∧ b0 ≤ 0xF4 then
      match rest with
      | b1 :: b2 :: b3 :: r =>
        if utf8Valid4 b0 b1 b2 b3 then
          (utf8Decode r).map
            (fun cs =>
              Char.ofNat
                ((b0 - 0xF0) * 262144 + (b1 - 0x80) * 4096 + (b2 - 0x80) * 64 + (b3 - 0x80)) :: cs)
        else none
      | _ => none
    else none

/-- Scan to the first ':' of the text: the lazy `[^:]+?` of METADATA_RE can
only stop at a colon, so a match attempt takes exactly the chars before the
first colon as the key.  Returns those chars and the text after the colon;
`none` when no colon remains. -/
def takeUntilColon : List Char → Option (List Char × List Char)
  | [] => none
  | c :: rest =>
    if c = ':' then some ([], rest)
    else (takeUntilColon rest).map (fun p => (c :: p.1, p.2))

/-- Scan to the first '>' for the lazy `(?P<value>.*?)` of METADATA_RE: `.`
does not match a newline, so a '\n' before the '>' aborts the attempt. -/
def takeValue : List Char → Option (List Char × List Char)
  | [] => none
  | c :: rest =>
    if c = '>' then some ([], rest)
    else if c = '\n' then none
    else (takeValue rest).map (fun p => (c :: p.1, p.2))

/-- One attempt of METADATA_RE at a '<': `rest` is the text after the '<'.
The key must be nonempty (`[^:]+?`).  Yields key chars, value chars and the
text after the closing '>'. -/
def matchTagAt (rest : List Char) : Option (List Char × List Char × List Char) :=
  match takeUntilColon rest with
  | none => none
  | some (k, r1) =>
    if k = [] then none
    else
      match takeValue r1 with
      | none => none
      | some (v, r2) => some (k, v, r2)

/-- captures_iter of METADATA_RE (src/main.rs line 36): leftmost-first,
non-overlapping matches over the text.  A failed attempt advances one char; a
successful one resumes after the matched '>'.  The recursion is bounded by a
fuel initialised to the text length; each step consumes at least one char
(a successful match at least three), so with that fuel the recursion is never
cut short: at fuel 0 the text is already empty. -/
def findTagsAux : Nat → List Char → List (String × String)
  | 0, _ => []
  | _ + 1, [] => []
  | fuel + 1, c :: rest =>
    if c = '<' then
      match matchTagAt rest with
      | some (k, v, r2) => (String.mk k, String.mk v) :: findTagsAux fuel r2
      | none => findTagsAux fuel rest
    else findTagsAux fuel rest

/-- All key-value tags METADATA_RE finds in the text, in match order. -/
def findTags (text : List Char) : List (String × String) := findTagsAux text.length text

/-- collect::<HashMap<_, _>>() over the captured pairs (src/main.rs lines
112-119): each pair is inserted in match order, a later pair with the same
key overwriting the earlier value.  The HashMap is modelled by its lookup
function. -/
def collectMap (tags : List (String × String)) : String → Option String :=
  tags.foldl (fun m kv => fun q => if q = kv.1 then some kv.2 else m q) (fun _ => none)

/-- parse_metadata_block (src/main.rs lines 91-122): address 0 is the
"not present" sentinel and yields the empty map with no read; otherwise a
4-byte little-endian length is read at the address, then exactly that many
content bytes, which must be UTF-8; the tags found by METADATA_RE are
collected into the map (represented by the list of captured pairs in match
order; its HashMap semantics is collectMap of that list). -/
def parse_metadata_block (file : List Nat) (address : Nat) :
    Except String (List (String × String)) :=
  if address = 0 then Except.ok []
  else
    match readExact file address 4 with
    | none => Except.error "failed to fill whole buffer"
    | some lenBytes =>
      match readExact file (address + 4) (u32_le lenBytes) with
      | none => Except.error "failed to fill whole buffer"
      | some content =>
        match utf8Decode content with
        | none => Except.error "invalid utf-8 sequence"
        | some chars => Except.ok (findTags chars)

/-- The value scan as the spec words it: "value is matched non-greedily up to
the next '>'", with no newline restriction.  This follows the claim's words
and exists only to be compared against the code's takeValue, which it does
not coincide with on values containing a newline. -/
def takeValueSpecWords : List Char → Option (List Char × List Char)
  | [] => none
  | c :: rest =>
    if c = '>' then some ([], rest)
    else (takeValueSpecWords rest).map (fun p => (c :: p.1, p.2))

/-- matchTagAt with the spec-words value scan. -/
def matchTagAtSpecWords (rest : List Char) : Option (List Char × List Char × List Char) :=
  match takeUntilColon rest with
  | none => none
  | some (k, r1) =>
    if k = [] then none
    else
      match takeValueSpecWords r1 with
      | none => none
      | some (v, r2) => some (k, v, r2)

/-- findTags with the spec-words value scan. -/
def findTagsSpecWordsAux : Nat → List Char → List (String × String)
  | 0, _ => []
  | _ + 1, [] => []
  | fuel + 1, c :: rest =>
    if c = '<' then
      match matchTagAtSpecWords rest with
      | some (k, v, r2) => (String.mk k, String.mk v) :: findTagsSpecWordsAux fuel r2
      | none => findTagsSpecWordsAux fuel rest
    else findTagsSpecWordsAux fuel rest

/-- The tag extraction the claim's words describe (value up to the next '>',
newline or not). -/
def findTagsSpecWords (text : List Char) : List (String × String) :=
  findTagsSpecWordsAux text.length text

/-- The stages of convert_note_to_pdf (src/main.rs lines 300-467) at which an
IO operation can fail, in program order: opening and parsing the input
(302-305), rendering the pages (310-352), File::create of the output (409),
writing the object bytes (414-462), the final flush (464). -/
inductive ConvStage
  | parseInput
  | renderPages
  | createOutput
  | writeObjects
  | flushOutput
deriving DecidableEq

/-- Effect model of convert_note_to_pdf: the environment chooses the first IO
operation that fails (`none`: all succeed).  The result is the function's
return value paired with whether a file exists at the output path after the
call.  File::create (line 409) runs only after parsing and rendering
succeeded, so failures before it leave no file; the error path contains no
removal of the output, so a failure while writing or flushing leaves the
created, partially written file in place. -/
def convertNoteToPdfRun : Option ConvStage → Except ConvStage Unit × Bool
  | some .parseInput => (Except.error .parseInput, false)
  | some .renderPages => (Except.error .renderPages, false)
  | some .createOutput => (Except.error .createOutput, false)
  | some .writeObjects => (Except.error .writeObjects, true)
  | some .flushOutput => (Except.error .flushOutput, true)
  | none => (Except.ok (), true)

set_option maxRecDepth 10000

theorem land_128_eq_zero {m : Nat} (h : m < 128) : m &&& 128 = 0 := by
  have h2 : m &&& 2 ^ 7 = (m.testBit 7).toNat * 2 ^ 7 := Nat.and_two_pow m 7
  rw [Nat.testBit_lt_two_pow h] at h2
  simpa using h2

/-- Claim C1: decode_rle returns, for every input buffer and every
width/height, exactly the decoded core truncated to width*height bytes with
any shortfall padded by the transparency code 0x62; the result therefore
always has length width*height, regardless of whether the input stream is
well-formed. -/
theorem decode_rle_output_length (data : List Nat) (w h : Nat) :
    decode_rle data w h =
      Except.ok ((decodeRleCore data w h).take (w * h) ++
        List.replicate (w * h - (decodeRleCore data w h).length) 0x62) ∧
    ((decodeRleCore data w h).take (w * h) ++
      List.replicate (w * h - (decodeRleCore data w h).length) 0x62).length = w * h := by
  constructor
  · unfold decode_rle
    by_cases hlen : (decodeRleCore data w h).length = w * h
    · simp only [hlen, ne_eq, not_true_eq_false, if_false, ite_false]
      rw [← hlen, List.take_length]
      simp
    · simp [hlen]
  · simp only [List.length_append, List.length_take, List.length_replicate]
    omega

/-- Claim C5: decode_rle has no failure path: for every input buffer
(including empty, odd-length or malformed data) and every width and height it
returns Ok. -/
theorem decode_rle_never_fails (data : List Nat) (w h : Nat) :
    ∃ out, decode_rle data w h = Except.ok out := ⟨_, rfl⟩

/-- Claim C3: with the holder occupied by (prev_color, prev_len) and the next
pair carrying the same color, the decoder emits one combined run of length
1 + length_code + ((prev_len & 0x7f) + 1) << 7 and clears the holder; in
particular the two-pair input (c, 0x80), (c, k) decodes, before the final
padding/truncation, to a single run of 129 + k pixels of c. -/
theorem decode_rle_holder_match_combines :
    (∀ pc pl l rest acc,
        decodeRleLoop (pc :: l :: rest) (some (pc, pl)) acc =
          decodeRleLoop rest none
            (acc ++ List.replicate (1 + l + (((pl &&& 0x7f) + 1) <<< 7)) pc)) ∧
    (∀ c k w h, decodeRleCore [c, 0x80, c, k] w h = List.replicate (129 + k) c) := by
  have hstep : ∀ pc pl l rest acc,
      decodeRleLoop (pc :: l :: rest) (some (pc, pl)) acc =
        decodeRleLoop rest none
          (acc ++ List.replicate (1 + l + (((pl &&& 0x7f) + 1) <<< 7)) pc) := by
    intro pc pl l rest acc
    simp [decodeRleLoop]
  refine ⟨hstep, ?_⟩
  intro c k w h
  have h1 : decodeRleLoop [c, 0x80, c, k] none [] = decodeRleLoop [c, k] (some (c, 0x80)) [] := rfl
  have h2 := hstep c 0x80 k [] []
  have hc : (((0x80 &&& 0x7f : Nat) + 1) <<< 7) = 128 := by decide
  have h3 : decodeRleLoop [c, 0x80, c, k] none [] = (List.replicate (129 + k) c, none) := by
    rw [h1, h2, hc]
    have hx : 1 + k + 128 = 129 + k := by omega
    rw [hx]
    rfl
  simp [decodeRleCore, h3]

/-- Claim C2 counterexample: with the holder occupied by (1, 0x80) and the
next pair (2, 0xff), the decoder emits the held 128 pixels of color 1 and
then only 256 pixels of color 2 (plain length_code + 1), not the 16384
pixels that the 0xFF long-run marker would produce if the pair were
re-dispatched as with an empty holder. -/
theorem decode_rle_holder_mismatch_counterexample :
    decodeRleCore [1, 0x80, 2, 0xff] 0 0 = List.replicate 128 1 ++ List.replicate 256 2 ∧
    decodeRleCore [1, 0x80, 2, 0xff] 0 0 ≠ List.replicate 128 1 ++ List.replicate 16384 2 := by
  constructor
  · decide
  · intro heq
    have h1 : (decodeRleCore [1, 0x80, 2, 0xff] 0 0).length = 384 := by decide
    rw [heq] at h1
    simp only [List.length_append, List.length_replicate] at h1
    omega

/-- Claim C2 amended: on a holder color mismatch the decoder first emits the
held run of length ((prev_len & 0x7f) + 1) << 7 and then emits the current
pair as a plain run of length length_code + 1, with no special treatment of
the 0xFF marker or the high bit; consequently (c1, 0x80), (c2, k) with
c1 ≠ c2 decodes, before the final padding/truncation, to 128 pixels of c1
followed by k + 1 pixels of c2 — for every k, not only k < 0x80. -/
theorem decode_rle_holder_mismatch_amended :
    (∀ pc pl c l rest acc, c ≠ pc →
        decodeRleLoop (c :: l :: rest) (some (pc, pl)) acc =
          decodeRleLoop rest none
            ((acc ++ List.replicate (((pl &&& 0x7f) + 1) <<< 7) pc) ++
              List.replicate (l + 1) c)) ∧
    (∀ c1 c2 k w h, c1 ≠ c2 →
        decodeRleCore [c1, 0x80, c2, k] w h =
          List.replicate 128 c1 ++ List.replicate (k + 1) c2) := by
  have hstep : ∀ pc pl c l rest acc, c ≠ pc →
      decodeRleLoop (c :: l :: rest) (some (pc, pl)) acc =
        decodeRleLoop rest none
          ((acc ++ List.replicate (((pl &&& 0x7f) + 1) <<< 7) pc) ++
            List.replicate (l + 1) c) := by
    intro pc pl c l rest acc hne
    simp [decodeRleLoop, hne]
  refine ⟨hstep, ?_⟩
  intro c1 c2 k w h hne
  have h1 : decodeRleLoop [c1, 0x80, c2, k] none [] =
      decodeRleLoop [c2, k] (some (c1, 0x80)) [] := rfl
  have h2 := hstep c1 0x80 c2 k [] [] (fun hc => hne hc.symm)
  have hc : (((0x80 &&& 0x7f : Nat) + 1) <<< 7) = 128 := by decide
  have h3 : decodeRleLoop [c1, 0x80, c2, k] none [] =
      (List.replicate 128 c1 ++ List.replicate (k + 1) c2, none) := by
    rw [h1, h2, hc]
    rfl
  simp [decodeRleCore, h3]

/-- Claim C2 amended, witness at c1 = 1, c2 = 2, k = 5. -/
theorem decode_rle_holder_mismatch_amended_witness :
    decodeRleCore [1, 0x80, 2, 5] 0 0 = List.replicate 128 1 ++ List.replicate 6 2 :=
  decode_rle_holder_mismatch_amended.2 1 2 5 0 0 (by decide)

/-- Claim C4: when the input pairs are exhausted with the holder still
occupied by (c, l), the decoder appends exactly one final run of color c
whose length is the minimum of ((l & 0x7f) + 1) << 7 and the pixels still
needed to reach width*height (zero when the output is already full), and
nothing else. -/
theorem decode_rle_final_holder_flush (data : List Nat) (w h : Nat) (dec : List Nat) (c l : Nat)
    (hloop : decodeRleLoop data none [] = (dec, some (c, l))) :
    decodeRleCore data w h =
      dec ++ List.replicate (min (((l &&& 0x7f) + 1) <<< 7) (w * h - dec.length)) c := by
  unfold decodeRleCore
  rw [hloop]
  by_cases h0 : 0 < min (((l &&& 0x7f) + 1) <<< 7) (w * h - dec.length)
  · simp [h0]
  · have hz : min (((l &&& 0x7f) + 1) <<< 7) (w * h - dec.length) = 0 := by omega
    simp [hz]

/-- Claim C4 witness: the stream [5, 0x80] ends on an unresolved escape; at
10×10 the flush emits min 128 100 = 100 pixels of color 5. -/
theorem decode_rle_final_holder_flush_witness :
    decodeRleCore [5, 0x80] 10 10 = List.replicate 100 5 :=
  decode_rle_final_holder_flush [5, 0x80] 10 10 [] 5 0x80 (by decide)

theorem decodeRleLoop_encodeRuns :
    ∀ (runs : List (Nat × Nat)) (acc : List Nat),
      (∀ r ∈ runs, 1 ≤ r.2 ∧ r.2 ≤ 128) →
      decodeRleLoop (encodeRuns runs) none acc = (acc ++ flattenRuns runs, none) := by
  intro runs
  induction runs with
  | nil => intro acc _; simp [encodeRuns, flattenRuns, decodeRleLoop]
  | cons r rs ih =>
    obtain ⟨c, n⟩ := r
    intro acc hall
    have hn : 1 ≤ (c, n).2 ∧ (c, n).2 ≤ 128 := hall (c, n) (List.mem_cons_self _ _)
    have hne : n - 1 ≠ 0xff := by omega
    have hland : (n - 1) &&& 0x80 = 0 := land_128_eq_zero (by omega)
    have hrs : ∀ r ∈ rs, 1 ≤ r.2 ∧ r.2 ≤ 128 := fun r hr => hall r (List.mem_cons_of_mem _ hr)
    simp only [encodeRuns, decodeRleLoop]
    rw [if_neg hne, if_neg (by simp [hland])]
    rw [ih _ hrs]
    have hsucc : n - 1 + 1 = n := by omega
    rw [hsucc, List.append_assoc]
    simp [flattenRuns]

/-- Claim C6: round-trip: any raw buffer presented as a decomposition into
runs of length between 1 and 128, encoded run-by-run as the pair
(color, n - 1) — so no length code is 0xFF or has its high bit set — and
decoded at dimensions matching the buffer length, is reproduced exactly. -/
theorem decode_rle_round_trip (runs : List (Nat × Nat)) (w h : Nat)
    (hruns : ∀ r ∈ runs, 1 ≤ r.2 ∧ r.2 ≤ 128)
    (hlen : (flattenRuns runs).length = w * h) :
    decode_rle (encodeRuns runs) w h = Except.ok (flattenRuns runs) := by
  have hloop := decodeRleLoop_encodeRuns runs [] hruns
  unfold decode_rle decodeRleCore
  rw [hloop]
  simp [hlen]

/-- Claim C6 witness: the buffer [7, 7, 9] split into runs (7, 2), (9, 1)
encodes to [7, 1, 9, 0] and decodes back to [7, 7, 9] at 3×1. -/
theorem decode_rle_round_trip_witness :
    decode_rle [7, 1, 9, 0] 3 1 = Except.ok [7, 7, 9] :=
  decode_rle_round_trip [(7, 2), (9, 1)] 3 1 (by decide) (by decide)

theorem decodeRleLoop_dropLast_of_odd :
    ∀ (n : Nat) (data : List Nat), data.length ≤ n → data.length % 2 = 1 →
      ∀ holder acc, decodeRleLoop data holder acc = decodeRleLoop data.dropLast holder acc := by
  intro n
  induction n with
  | zero =>
    intro data hle hodd holder acc
    exact absurd hodd (by omega)
  | succ n ih =>
    intro data hle hodd holder acc
    rcases data with _ | ⟨c, data⟩
    · exact absurd hodd (by simp)
    rcases data with _ | ⟨l, rest⟩
    · rfl
    · have hodd2 : rest.length % 2 = 1 := by
        simp only [List.length_cons] at hodd; omega
      have hne : rest ≠ [] := by
        intro h; subst h; simp at hodd2
      have hle2 : rest.length ≤ n := by
        simp only [List.length_cons] at hle; omega
      have hdrop : (c :: l :: rest).dropLast = c :: l :: rest.dropLast := by
        rcases rest with _ | ⟨x, xs⟩
        · exact absurd rfl hne
        · rfl
      rw [hdrop]
      cases holder with
      | some p =>
        obtain ⟨pc, pl⟩ := p
        simp only [decodeRleLoop]
        by_cases hc : c = pc
        · rw [if_pos hc, if_pos hc]
          exact ih rest hle2 hodd2 _ _
        · rw [if_neg hc, if_neg hc]
          exact ih rest hle2 hodd2 _ _
      | none =>
        simp only [decodeRleLoop]
        by_cases hff : l = 0xff
        · rw [if_pos hff, if_pos hff]
          exact ih rest hle2 hodd2 _ _
        · rw [if_neg hff, if_neg hff]
          by_cases hhb : l &&& 0x80 ≠ 0
          · rw [if_pos hhb, if_pos hhb]
            exact ih rest hle2 hodd2 _ _
          · rw [if_neg hhb, if_neg hhb]
            exact ih rest hle2 hodd2 _ _

/-- Claim C10: for a compressed buffer of odd length, decode_rle ignores the
final unpaired byte: the result equals decode_rle of the buffer with its last
byte removed, at the same dimensions, and the lone byte never causes a
failure. -/
theorem decode_rle_ignores_trailing_byte (data : List Nat) (w h : Nat)
    (hodd : data.length % 2 = 1) :
    decode_rle data w h = decode_rle data.dropLast w h := by
  have hloop := decodeRleLoop_dropLast_of_odd data.length data le_rfl hodd none []
  unfold decode_rle decodeRleCore
  rw [hloop]

/-- Claim C10 witness at the odd-length buffer [1, 2, 3]. -/
theorem decode_rle_ignores_trailing_byte_witness :
    decode_rle [1, 2, 3] 3 1 = decode_rle [1, 2] 3 1 :=
  decode_rle_ignores_trailing_byte [1, 2, 3] 3 1 (by decide)

/-- Claim C7 counterexample: a footer key PAGEX — prefix PAGE but no numeric
suffix — is not skipped by pattern matching as the claim states: the code
panics in the sort-key unwrap (the error branch of page_addrs), so the page
sequence [42] predicted for the sole matching key PAGE1 is not returned. -/
theorem page_addrs_pattern_counterexample :
    page_addrs [("PAGEX", "7"), ("PAGE1", "42")] ≠ Except.ok [42] := by decide

/-- Claim C7 amended: parse_notebook keeps the footer keys with string prefix
PAGE and requires every such key to have a numeric suffix, panicking on any
other key instead of skipping it; when all suffixes are numeric the pages are
ordered ascending by the numeric suffix (not lexicographically) and each
key's value is resolved to that page's address; in particular PAGE2, PAGE10,
PAGE1 with addresses 20, 100, 10 yield [10, 20, 100]. -/
theorem page_addrs_numeric_order :
    (page_addrs [("PAGE2", "20"), ("PAGE10", "100"), ("PAGE1", "10")] =
      Except.ok [10, 20, 100]) ∧
    (∀ footer : List (String × String),
        (sortedPageKvs footer).Perm
            (footer.filter fun kv => ['P', 'A', 'G', 'E'].isPrefixOf kv.1.data) ∧
          (sortedPageKvs footer).Pairwise fun a b => pageSortKey a ≤ pageSortKey b) ∧
    (∀ footer l, page_addrs footer = Except.ok l →
        (sortedPageKvs footer).mapM (fun kv => parse_u64 kv.2.data) = some l) := by
  refine ⟨by decide, fun footer => ⟨?_, ?_⟩, ?_⟩
  · exact List.perm_insertionSort _ _
  · haveI ht : IsTotal (String × String) (fun a b => pageSortKey a ≤ pageSortKey b) :=
      ⟨fun a b => Nat.le_total _ _⟩
    haveI htr : IsTrans (String × String) (fun a b => pageSortKey a ≤ pageSortKey b) :=
      ⟨fun a b c hab hbc => le_trans hab hbc⟩
    exact List.sorted_insertionSort _ _
  · intro footer l hok
    unfold page_addrs at hok
    by_cases hall : (footer.filter fun kv => ['P', 'A', 'G', 'E'].isPrefixOf kv.1.data).all
        (fun kv => (parse_u64 (kv.1.data.drop 4)).isSome) = true
    · rw [if_pos hall] at hok
      cases hm : (sortedPageKvs footer).mapM (fun kv => parse_u64 kv.2.data) with
      | some l2 =>
        rw [hm] at hok
        have h2 : l2 = l := Except.ok.inj hok
        subst h2
        rfl
      | none =>
        rw [hm] at hok
        exact Except.noConfusion hok
    · rw [if_neg hall] at hok
      exact Except.noConfusion hok

/-- Claim C7 amended, witness: the footer PAGE10 ↦ 100, PAGE1 ↦ 42 resolves
to the numerically ordered addresses [42, 100]. -/
theorem page_addrs_numeric_order_witness :
    (sortedPageKvs [("PAGE10", "100"), ("PAGE1", "42")]).mapM (fun kv => parse_u64 kv.2.data) =
      some [42, 100] :=
  page_addrs_numeric_order.2.2 [("PAGE10", "100"), ("PAGE1", "42")] [42, 100] (by decide)

theorem takeUntilColon_lt :
    ∀ (l : List Char) (p : List Char × List Char),
      takeUntilColon l = some p → p.2.length < l.length := by
  intro l
  induction l with
  | nil => intro p h; simp [takeUntilColon] at h
  | cons c rest ih =>
    intro p h
    simp only [takeUntilColon] at h
    by_cases hc : c = ':'
    · rw [if_pos hc] at h
      cases h
      simp
    · rw [if_neg hc] at h
      cases hrec : takeUntilColon rest with
      | none => rw [hrec] at h; simp at h
      | some q =>
        rw [hrec] at h
        simp only [Option.map_some', Option.some.injEq] at h
        have hq := ih q hrec
        rw [← h]
        simp only [List.length_cons]
        omega

theorem takeValue_lt :
    ∀ (l : List Char) (p : List Char × List Char),
      takeValue l = some p → p.2.length < l.length := by
  intro l
  induction l with
  | nil => intro p h; simp [takeValue] at h
  | cons c rest ih =>
    intro p h
    simp only [takeValue] at h
    by_cases hc : c = '>'
    · rw [if_pos hc] at h
      cases h
      simp
    · rw [if_neg hc] at h
      by_cases hn : c = '\n'
      · rw [if_pos hn] at h; simp at h
      · rw [if_neg hn] at h
        cases hrec : takeValue rest with
        | none => rw [hrec] at h; simp at h
        | some q =>
          rw [hrec] at h
          simp only [Option.map_some', Option.some.injEq] at h
          have hq := ih q hrec
          rw [← h]
          simp only [List.length_cons]
          omega

theorem matchTagAt_lt (rest : List Char) (k v r2 : List Char)
    (h : matchTagAt rest = some (k, v, r2)) : r2.length < rest.length := by
  unfold matchTagAt at h
  cases h1 : takeUntilColon rest with
  | none => simp only [h1] at h; exact Option.noConfusion h
  | some p =>
    obtain ⟨k1, r1⟩ := p
    simp only [h1] at h
    by_cases hk : k1 = []
    · rw [if_pos hk] at h; exact Option.noConfusion h
    · rw [if_neg hk] at h
      cases h2 : takeValue r1 with
      | none => simp only [h2] at h; exact Option.noConfusion h
      | some q =>
        obtain ⟨v1, r2x⟩ := q
        simp only [h2] at h
        simp only [Option.some.injEq, Prod.mk.injEq] at h
        obtain ⟨rfl, rfl, rfl⟩ := h
        have ha := takeUntilColon_lt rest (k1, r1) h1
        have hb := takeValue_lt r1 (v1, r2x) h2
        exact Nat.lt_trans hb ha

theorem findTagsAux_irrel :
    ∀ (n : Nat) (l : List Char), l.length ≤ n →
      ∀ fuel fuel2, l.length ≤ fuel → l.length ≤ fuel2 →
        findTagsAux fuel l = findTagsAux fuel2 l := by
  intro n
  induction n with
  | zero =>
    intro l hl fuel fuel2 h1 h2
    have hnil : l = [] := List.eq_nil_of_length_eq_zero (by omega)
    subst hnil
    cases fuel <;> cases fuel2 <;> rfl
  | succ n ih =>
    intro l hl fuel fuel2 h1 h2
    rcases l with _ | ⟨c, rest⟩
    · cases fuel <;> cases fuel2 <;> rfl
    · rcases fuel with _ | fuel
      · simp only [List.length_cons] at h1; omega
      rcases fuel2 with _ | fuel2
      · simp only [List.length_cons] at h2; omega
      have hr : rest.length ≤ n := by simp only [List.length_cons] at hl; omega
      have hrf : rest.length ≤ fuel := by simp only [List.length_cons] at h1; omega
      have hrf2 : rest.length ≤ fuel2 := by simp only [List.length_cons] at h2; omega
      simp only [findTagsAux]
      by_cases hc : c = '<'
      · rw [if_pos hc, if_pos hc]
        cases hm : matchTagAt rest with
        | none => exact ih rest hr fuel fuel2 hrf hrf2
        | some kvr =>
          obtain ⟨k, v, r2⟩ := kvr
          have hlt := matchTagAt_lt rest k v r2 hm
          simp only []
          rw [ih r2 (by omega) fuel fuel2 (by omega) (by omega)]
      · rw [if_neg hc, if_neg hc]
        exact ih rest hr fuel fuel2 hrf hrf2

theorem takeUntilColon_key :
    ∀ (k r : List Char), (∀ ch ∈ k, ch ≠ ':') →
      takeUntilColon (k ++ ':' :: r) = some (k, r) := by
  intro k
  induction k with
  | nil => intro r _; simp [takeUntilColon]
  | cons c k ih =>
    intro r hk
    have hc : c ≠ ':' := hk c (List.mem_cons_self _ _)
    simp only [List.cons_append, takeUntilColon, List.append_eq]
    rw [if_neg hc, ih r (fun ch hch => hk ch (List.mem_cons_of_mem _ hch))]
    rfl

theorem takeValue_value :
    ∀ (v r : List Char), (∀ ch ∈ v, ch ≠ '>' ∧ ch ≠ '\n') →
      takeValue (v ++ '>' :: r) = some (v, r) := by
  intro v
  induction v with
  | nil => intro r _; simp [takeValue]
  | cons c v ih =>
    intro r hv
    have hc := hv c (List.mem_cons_self _ _)
    simp only [List.cons_append, takeValue, List.append_eq]
    rw [if_neg hc.1, if_neg hc.2, ih r (fun ch hch => hv ch (List.mem_cons_of_mem _ hch))]
    rfl

theorem matchTagAt_tag (k v rest : List Char) (hk : k ≠ [])
    (hkc : ∀ ch ∈ k, ch ≠ ':') (hv : ∀ ch ∈ v, ch ≠ '>' ∧ ch ≠ '\n') :
    matchTagAt (k ++ ':' :: (v ++ '>' :: rest)) = some (k, v, rest) := by
  simp [matchTagAt, takeUntilColon_key k _ hkc, takeValue_value v rest hv, hk]

theorem findTags_cons_tag (k v rest : List Char) (hk : k ≠ [])
    (hkc : ∀ ch ∈ k, ch ≠ ':') (hv : ∀ ch ∈ v, ch ≠ '>' ∧ ch ≠ '\n') :
    findTags ('<' :: (k ++ ':' :: (v ++ '>' :: rest))) =
      (String.mk k, String.mk v) :: findTags rest := by
  unfold findTags
  simp only [List.length_cons, findTagsAux, if_true, ite_true,
    matchTagAt_tag k v rest hk hkc hv]
  congr 1
  exact findTagsAux_irrel (k ++ ':' :: (v ++ '>' :: rest)).length rest
    (by simp [List.length_append]; omega) _ _ (by simp [List.length_append]; omega) le_rfl

theorem collectMap_last (tags : List (String × String)) (q : String) :
    collectMap tags q = (tags.reverse.find? fun kv => kv.1 == q).map Prod.snd := by
  induction tags using List.reverseRecOn with
  | nil => rfl
  | append_singleton ts kv ih =>
    unfold collectMap
    rw [List.foldl_append]
    simp only [List.foldl_cons, List.foldl_nil]
    rw [List.reverse_append]
    simp only [List.reverse_cons, List.reverse_nil, List.nil_append, List.singleton_append]
    by_cases hq : q = kv.1
    · rw [if_pos hq]
      rw [List.find?_cons_of_pos _ (by simp [hq])]
      rfl
    · rw [if_neg hq]
      rw [List.find?_cons_of_neg _ (by simp only [beq_iff_eq]; exact fun h => hq h.symm)]
      exact ih

/-- Claim C8 amended: parse_metadata_block at address 0 returns the empty map
without reading the source; at a nonzero address it reads a 4-byte
little-endian length L at that address, exactly L content bytes after it,
decodes them as UTF-8 and extracts the non-overlapping tags of METADATA_RE —
a tag being a '<', a nonempty key without colons, a ':', a value running to
the next '>' and containing no newline, and that '>' — and when a key occurs
in several tags the collected map binds it to the value of the last
occurrence. -/
theorem parse_metadata_block_contract :
    (∀ file : List Nat, parse_metadata_block file 0 = Except.ok []) ∧
    (∀ (file : List Nat) (addr : Nat) (lb content : List Nat) (chars : List Char),
        addr ≠ 0 → readExact file addr 4 = some lb →
        readExact file (addr + 4) (u32_le lb) = some content →
        utf8Decode content = some chars →
        parse_metadata_block file addr = Except.ok (findTags chars)) ∧
    (∀ (k v rest : List Char), k ≠ [] → (∀ ch ∈ k, ch ≠ ':') →
        (∀ ch ∈ v, ch ≠ '>' ∧ ch ≠ '\n') →
        findTags ('<' :: (k ++ ':' :: (v ++ '>' :: rest))) =
          (String.mk k, String.mk v) :: findTags rest) ∧
    (∀ (tags : List (String × String)) (q : String),
        collectMap tags q = (tags.reverse.find? fun kv => kv.1 == q).map Prod.snd) := by
  refine ⟨fun file => rfl, ?_, findTags_cons_tag, collectMap_last⟩
  intro file addr lb content chars haddr h1 h2 h3
  simp [parse_metadata_block, haddr, h1, h2, h3]

/-- Claim C8 amended, witness: a block of length 15 at address 1 holding
the text <A:1><B:2><A:3> parses successfully, and the collected map binds the
duplicated key A to its last value 3. -/
theorem parse_metadata_block_contract_witness :
    parse_metadata_block
        [0, 15, 0, 0, 0, 60, 65, 58, 49, 62, 60, 66, 58, 50, 62, 60, 65, 58, 51, 62] 1 =
      Except.ok
        (findTags ['<', 'A', ':', '1', '>', '<', 'B', ':', '2', '>', '<', 'A', ':', '3', '>']) ∧
    collectMap [("A", "1"), ("B", "2"), ("A", "3")] "A" = some "3" := by
  constructor
  · exact parse_metadata_block_contract.2.1 _ 1 [15, 0, 0, 0]
      [60, 65, 58, 49, 62, 60, 66, 58, 50, 62, 60, 65, 58, 51, 62]
      ['<', 'A', ':', '1', '>', '<', 'B', ':', '2', '>', '<', 'A', ':', '3', '>']
      (by decide) (by decide) (by decide) (by decide)
  · rw [parse_metadata_block_contract.2.2.2]
    decide

/-- Claim C8 counterexample: the block at address 1 holds the text with the
chars '<', 'A', ':', 'x', newline, 'y', '>'.  The claim's reading — value
matched up to the next '>' — extracts the tag (A, x-newline-y), as
findTagsSpecWords shows, but the code's pattern, whose '.' does not match a
newline, extracts nothing and parse_metadata_block returns the empty map. -/
theorem parse_metadata_block_newline_counterexample :
    parse_metadata_block [0, 7, 0, 0, 0, 60, 65, 58, 120, 10, 121, 62] 1 = Except.ok [] ∧
    findTagsSpecWords ['<', 'A', ':', 'x', '\n', 'y', '>'] =
      [("A", String.mk ['x', '\n', 'y'])] ∧
    utf8Decode [60, 65, 58, 120, 10, 121, 62] =
      some ['<', 'A', ':', 'x', '\n', 'y', '>'] := by
  refine ⟨by decide, by decide, by decide⟩

/-- Claim C9 counterexample: when the environment fails the object-writing
stage, convert_note_to_pdf returns an error although the output file was
already created and partially written — an output file exists although the
conversion did not succeed. -/
theorem convert_note_to_pdf_partial_output_counterexample :
    (convertNoteToPdfRun (some ConvStage.writeObjects)).1 = Except.error ConvStage.writeObjects ∧
    (convertNoteToPdfRun (some ConvStage.writeObjects)).2 = true :=
  ⟨rfl, rfl⟩

/-- Claim C9 amended: failures during parsing, decoding or rendering occur
before File::create, so they leave no output file and surface the error; a
fault-free run creates the output and succeeds.  (A failure while writing or
flushing, by contrast, leaves the partially written file in place.) -/
theorem convert_note_to_pdf_output_stages (s : ConvStage)
    (hpre : s = ConvStage.parseInput ∨ s = ConvStage.renderPages ∨ s = ConvStage.createOutput) :
    ((convertNoteToPdfRun (some s)).2 = false ∧
      (convertNoteToPdfRun (some s)).1 = Except.error s) ∧
    convertNoteToPdfRun none = (Except.ok (), true) := by
  constructor
  · rcases hpre with h | h | h <;> subst h <;> exact ⟨rfl, rfl⟩
  · rfl

/-- Claim C9 amended, witness at the parse stage. -/
theorem convert_note_to_pdf_output_stages_witness :
    ((convertNoteToPdfRun (some ConvStage.parseInput)).2 = false ∧
      (convertNoteToPdfRun (some ConvStage.parseInput)).1 = Except.error ConvStage.parseInput) ∧
    convertNoteToPdfRun none = (Except.ok (), true) :=
  convert_note_to_pdf_output_stages ConvStage.parseInput (Or.inl rfl)

end Supernote
